import Mathlib

/-!
Verification of the WAV structural inspector (components/AudioFileCheck.py).

Files are modelled as lists of byte values (`List Nat`, each element below 256 for a
real file).  An opened PCM WAV stream (what `wave.open` yields) is modelled by
`WavStream`: the header fields plus the raw bytes that `readframes` can deliver.
Checks that can raise return `Except CheckError Bool`; the raising paths mirror the
`ValueError` raises of the source and the `audioop.error` that `audioop.max` raises
on a fragment whose length is not a multiple of the sample width.
-/

/-- Little-endian unsigned integer value of a byte list, as computed by python
int.from_bytes with byteorder little and signed False. -/
def leNat : List Nat → Nat
  | [] => 0
  | b :: bs => b + 256 * leNat bs

/-- Little-endian signed two-complement integer value of a byte list, as computed by
python int.from_bytes with byteorder little and signed True. -/
def leSigned (bs : List Nat) : Int :=
  if leNat bs < 2 ^ (8 * bs.length - 1) then (leNat bs : Int)
  else (leNat bs : Int) - 2 ^ (8 * bs.length)

/-- Errors raised by the checks: the ValueError raises of the source for a wrong
extension, a non PCM compression tag or an unsupported sample width, and the
audioop.error that audioop.max raises when the fragment length is not a whole
number of samples. -/
inductive CheckError where
  | unsupportedFileType
  | unsupportedCompression
  | unsupportedSampleWidth
  | audioopError
deriving DecidableEq

/-- A WAV stream as opened by wave.open: header-derived fields and the raw frame
bytes that successive readframes calls can deliver in total. -/
structure WavStream where
  sampleWidth : Nat
  channels : Nat
  totalFrames : Nat
  compType : String
  data : List Nat
deriving DecidableEq

/-- Byte tag "RIFF". -/
def riffTag : List Nat := [0x52, 0x49, 0x46, 0x46]

/-- Byte tag "WAVE". -/
def waveTag : List Nat := [0x57, 0x41, 0x56, 0x45]

/-- Byte tag "smpl". -/
def smplTag : List Nat := [0x73, 0x6D, 0x70, 0x6C]

/-- Model of python str.lower on the ASCII range, applied per character: letters
A..Z map to their lowercase form and every other character is unchanged. -/
def lowerChar (c : Char) : Char :=
  if 'A' ≤ c ∧ c ≤ 'Z' then Char.ofNat (c.toNat + 32) else c

/-- Lowercased character sequence of a path suffix, the model of
Path(file_path).suffix.lower(). -/
def lowerSuffix (s : String) : List Char := s.data.map lowerChar

/-- The required extension ".wav" as a character sequence. -/
def wavExt : List Char := ['.', 'w', 'a', 'v']

instance {e a : Type} [DecidableEq e] [DecidableEq a] : DecidableEq (Except e a) := fun x y =>
  match x, y with
  | .ok u, .ok v =>
    if h : u = v then .isTrue (by rw [h]) else .isFalse (by intro hc; cases hc; exact h rfl)
  | .ok _, .error _ => .isFalse (by intro hc; cases hc)
  | .error _, .ok _ => .isFalse (by intro hc; cases hc)
  | .error u, .error v =>
    if h : u = v then .isTrue (by rw [h]) else .isFalse (by intro hc; cases hc; exact h rfl)

/-- One pass of the read loop of is_wav_silent: read up to chunkBytes bytes, return
false on any byte different from the silent byte, otherwise continue with the rest.
An empty read (chunkBytes zero or no data left) ends the loop with true. -/
def silentScan (chunkBytes silentByte : Nat) (data : List Nat) : Bool :=
  if h1 : chunkBytes = 0 then true
  else if h2 : data = [] then true
  else if (data.take chunkBytes).any (fun b => b != silentByte) then false
  else silentScan chunkBytes silentByte (data.drop chunkBytes)
termination_by data.length
decreasing_by
  have h3 : 0 < data.length := List.length_pos.mpr h2
  rw [List.length_drop]
  omega

/-- Model of is_wav_silent: a zero-frame file is silent; otherwise the raw bytes are
scanned chunkwise and every byte must equal 0x80 for 8-bit PCM and 0x00 for every
other width.  readframes with argument chunk_frames yields
chunk_frames * sampleWidth * channels bytes per call. -/
def is_wav_silent (suffix : String) (wav : WavStream) (chunk_frames : Nat) :
    Except CheckError Bool :=
  if lowerSuffix suffix ≠ wavExt then .error .unsupportedFileType
  else if wav.totalFrames = 0 then .ok true
  else
    let silent_byte : Nat := if wav.sampleWidth = 1 then 0x80 else 0x00
    .ok (silentScan (chunk_frames * (wav.sampleWidth * wav.channels)) silent_byte wav.data)

/-- Model of wav_riff_size_matches_file: false below 12 bytes, false on wrong magic
tags, otherwise the little-endian 32-bit size field at bytes 4..8 must equal the
file size minus 8 exactly. -/
def wav_riff_size_matches_file (suffix : String) (file : List Nat) :
    Except CheckError Bool :=
  if lowerSuffix suffix ≠ wavExt then .error .unsupportedFileType
  else
    let file_size := file.length
    if file_size < 12 then .ok false
    else
      let header := file.take 12
      if header.take 4 ≠ riffTag ∨ (header.drop 8).take 4 ≠ waveTag then .ok false
      else .ok (decide (leNat ((header.drop 4).take 4) = file_size - 8))

/-- The RIFF chunk walk of wav_has_loop_points, operating on the bytes after the
12-byte header.  Fewer than 8 remaining bytes end the walk with false; the first
smpl chunk decides the verdict; any other chunk is skipped over its declared size
plus one pad byte when that size is odd. -/
def loopPointsScan (rest : List Nat) : Bool :=
  if h1 : rest.length < 8 then false
  else
    let chunk_id := rest.take 4
    let chunk_size := leNat ((rest.drop 4).take 4)
    if chunk_id = smplTag then
      if chunk_size < 36 then false
      else
        let smpl_data := (rest.drop 8).take 36
        if smpl_data.length < 36 then false
        else decide (0 < leNat ((smpl_data.drop 28).take 4))
    else
      loopPointsScan (rest.drop (8 + (chunk_size + chunk_size % 2)))
termination_by rest.length
decreasing_by
  rw [List.length_drop]
  omega

/-- Model of wav_has_loop_points: gate on the extension, false below 12 bytes or on
wrong magic tags, otherwise walk the chunks after the header. -/
def wav_has_loop_points (suffix : String) (file : List Nat) : Except CheckError Bool :=
  if lowerSuffix suffix ≠ wavExt then .error .unsupportedFileType
  else if file.length < 12 then .ok false
  else
    let header := file.take 12
    if header.take 4 ≠ riffTag ∨ (header.drop 8).take 4 ≠ waveTag then .ok false
    else .ok (loopPointsScan (file.drop 12))

/-- Per-channel PCM decode shared by _frame_peak_abs and wav_has_clipping: width 1
is the unsigned byte minus 128, width 3 appends a sign byte chosen from the top bit
of the most significant byte and reads 4 bytes little-endian signed, every other
width reads the slice little-endian signed. -/
def decodeSample (sample_width : Nat) (sample : List Nat) : Int :=
  if sample_width = 1 then (sample.headD 0 : Int) - 128
  else if sample_width = 3 then
    let sign : Nat := if sample.getD 2 0 &&& 0x80 ≠ 0 then 0xFF else 0x00
    leSigned (sample ++ [sign])
  else leSigned sample

/-- Model of _frame_peak_abs: zero for a frame slice shorter than one full frame,
otherwise the maximum absolute decoded value over the channels. -/
def _frame_peak_abs (frame_bytes : List Nat) (sample_width channels : Nat) : Nat :=
  if frame_bytes.length < sample_width * channels then 0
  else
    (List.range channels).foldl
      (fun peak ch =>
        max peak (decodeSample sample_width
          ((frame_bytes.drop (ch * sample_width)).take sample_width)).natAbs)
      0

/-- Full-scale amplitude for a sample width, as computed inline by the source:
127 for width 1, otherwise 2 ^ (8 * width - 1) - 1. -/
def maxAmplitude (w : Nat) : Nat := if w = 1 then 127 else 2 ^ (8 * w - 1) - 1

/-- Model of wav_has_hard_edges: gates for extension, compression, the zero-frame
early false and the sample width, then the minimum per-frame peak over a window at
the start and at the end of the stream, each seeded with the full-scale amplitude,
compared against the threshold. -/
def wav_has_hard_edges (suffix : String) (wav : WavStream)
    (zero_threshold_ratio : ℚ) (edge_window_frames : Int) : Except CheckError Bool :=
  if lowerSuffix suffix ≠ wavExt then .error .unsupportedFileType
  else if wav.compType ≠ "NONE" then .error .unsupportedCompression
  else if wav.totalFrames = 0 then .ok false
  else if ¬(wav.sampleWidth = 1 ∨ wav.sampleWidth = 2 ∨ wav.sampleWidth = 3 ∨
      wav.sampleWidth = 4) then .error .unsupportedSampleWidth
  else
    let max_amplitude := maxAmplitude wav.sampleWidth
    let threshold : Nat := max 1 (Int.toNat ⌊(max_amplitude : ℚ) * max 0 zero_threshold_ratio⌋)
    let window : Nat := (max 1 (min edge_window_frames (wav.totalFrames : Int))).toNat
    let frame_size := wav.sampleWidth * wav.channels
    let start_data := wav.data.take (window * frame_size)
    let end_data := (wav.data.drop ((wav.totalFrames - window) * frame_size)).take (window * frame_size)
    let start_min_peak := (List.range window).foldl
      (fun acc i => min acc (_frame_peak_abs ((start_data.drop (i * frame_size)).take frame_size)
        wav.sampleWidth wav.channels)) max_amplitude
    let end_min_peak := (List.range window).foldl
      (fun acc i => min acc (_frame_peak_abs ((end_data.drop (i * frame_size)).take frame_size)
        wav.sampleWidth wav.channels)) max_amplitude
    .ok (decide (threshold < start_min_peak ∨ threshold < end_min_peak))

/-- Model of audioop.max: raises audioop.error when the fragment length is not a
whole number of samples, otherwise the maximum of the absolute values of the
width-sized little-endian signed samples. -/
def audioop_max (w : Nat) (frag : List Nat) : Except CheckError Nat :=
  if frag.length % w ≠ 0 then .error .audioopError
  else
    .ok (((List.range (frag.length / w)).map
      (fun i => (leSigned ((frag.drop (i * w)).take w)).natAbs)).foldl max 0)

/-- Model of audioop.bias with width 1 and bias -128: adds -128 to each byte
modulo 256. -/
def audioop_bias (frag : List Nat) : List Nat := frag.map (fun b => (b + 128) % 256)

/-- The fast-path peak of one chunk in wav_has_clipping: bias by -128 first for
width 1, then audioop.max. -/
def chunk_peak (w : Nat) (frames : List Nat) : Except CheckError Nat :=
  if w = 1 then audioop_max 1 (audioop_bias frames)
  else audioop_max w frames

/-- Decoded samples of every full frame of one chunk, frames outermost, channels
innermost, exactly the order of the two nested loops in wav_has_clipping. -/
def chunkSamples (w ch : Nat) (frames : List Nat) : List Int :=
  (List.range (frames.length / (w * ch))).flatMap
    (fun i => (List.range ch).map
      (fun c => decodeSample w ((frames.drop (i * (w * ch) + c * w)).take w)))

/-- The hit-counting inner loops of wav_has_clipping over a list of decoded
samples: none means the loop returned true after reaching min_hits, some h is the
running hit count at the end of the chunk. -/
def scanSamples (threshold minHits : Nat) : Nat → List Int → Option Nat
  | hits, [] => some hits
  | hits, v :: rest =>
    if threshold ≤ v.natAbs then
      if minHits ≤ hits + 1 then none
      else scanSamples threshold minHits (hits + 1) rest
    else scanSamples threshold minHits hits rest

/-- The chunked read loop of wav_has_clipping: per chunk, compute the fast-path
peak (propagating an audioop error), skip the chunk when the peak is below the
threshold, otherwise decode and count; an empty read ends the loop with false. -/
def clipLoop (w ch threshold minHits chunkBytes : Nat) (hits : Nat) (data : List Nat) :
    Except CheckError Bool :=
  if h1 : chunkBytes = 0 then .ok false
  else if h2 : data = [] then .ok false
  else
    match chunk_peak w (data.take chunkBytes) with
    | .error e => .error e
    | .ok peak =>
      if peak < threshold then
        clipLoop w ch threshold minHits chunkBytes hits (data.drop chunkBytes)
      else
        match scanSamples threshold minHits hits (chunkSamples w ch (data.take chunkBytes)) with
        | none => .ok true
        | some hits2 => clipLoop w ch threshold minHits chunkBytes hits2 (data.drop chunkBytes)
termination_by data.length
decreasing_by
  all_goals
    have h3 : 0 < data.length := List.length_pos.mpr h2
    rw [List.length_drop]
    omega

/-- Model of wav_has_clipping: gates for extension, compression and sample width,
false for a non-positive channel count, then the chunked counting loop with
threshold max 1 (floor of max_amplitude times the clamped ratio) and hit quota
max 1 min_clipped_samples. -/
def wav_has_clipping (suffix : String) (wav : WavStream) (clip_threshold_ratio : ℚ)
    (min_clipped_samples : Int) (chunk_frames : Nat) : Except CheckError Bool :=
  if lowerSuffix suffix ≠ wavExt then .error .unsupportedFileType
  else if wav.compType ≠ "NONE" then .error .unsupportedCompression
  else if ¬(wav.sampleWidth = 1 ∨ wav.sampleWidth = 2 ∨ wav.sampleWidth = 3 ∨
      wav.sampleWidth = 4) then .error .unsupportedSampleWidth
  else if wav.channels = 0 then .ok false
  else
    let threshold_ratio : ℚ := min 1 (max 0 clip_threshold_ratio)
    let min_hits : Nat := (max 1 min_clipped_samples).toNat
    let max_amplitude := maxAmplitude wav.sampleWidth
    let threshold : Nat := max 1 (Int.toNat ⌊(max_amplitude : ℚ) * threshold_ratio⌋)
    clipLoop wav.sampleWidth wav.channels threshold min_hits
      (chunk_frames * (wav.sampleWidth * wav.channels)) 0 wav.data

/-- Modelled from the spec words for the refinement claim: the naive variant of the
clipping loop that decodes and tests every sample of every chunk, with no fast-path
peak skip. -/
def clipLoopNaive (w ch threshold minHits chunkBytes : Nat) (hits : Nat)
    (data : List Nat) : Bool :=
  if h1 : chunkBytes = 0 then false
  else if h2 : data = [] then false
  else
    match scanSamples threshold minHits hits (chunkSamples w ch (data.take chunkBytes)) with
    | none => true
    | some hits2 => clipLoopNaive w ch threshold minHits chunkBytes hits2 (data.drop chunkBytes)
termination_by data.length
decreasing_by
  have h3 : 0 < data.length := List.length_pos.mpr h2
  rw [List.length_drop]
  omega

/-- Modelled from the spec words for the refinement claim: wav_has_clipping with the
naive loop in place of the fast-path loop, identical gates and threshold. -/
def wav_has_clipping_naive (suffix : String) (wav : WavStream) (clip_threshold_ratio : ℚ)
    (min_clipped_samples : Int) (chunk_frames : Nat) : Except CheckError Bool :=
  if lowerSuffix suffix ≠ wavExt then .error .unsupportedFileType
  else if wav.compType ≠ "NONE" then .error .unsupportedCompression
  else if ¬(wav.sampleWidth = 1 ∨ wav.sampleWidth = 2 ∨ wav.sampleWidth = 3 ∨
      wav.sampleWidth = 4) then .error .unsupportedSampleWidth
  else if wav.channels = 0 then .ok false
  else
    let threshold_ratio : ℚ := min 1 (max 0 clip_threshold_ratio)
    let min_hits : Nat := (max 1 min_clipped_samples).toNat
    let max_amplitude := maxAmplitude wav.sampleWidth
    let threshold : Nat := max 1 (Int.toNat ⌊(max_amplitude : ℚ) * threshold_ratio⌋)
    .ok (clipLoopNaive wav.sampleWidth wav.channels threshold min_hits
      (chunk_frames * (wav.sampleWidth * wav.channels)) 0 wav.data)

/-- Number of decoded samples of the whole stream whose absolute value reaches the
threshold, the count the specification describes for wav_has_clipping. -/
def specClippedCount (w ch threshold : Nat) (data : List Nat) : Nat :=
  (chunkSamples w ch data).countP (fun v => decide (threshold ≤ v.natAbs))

/-- Per-frame peaks of a window of frames, the list whose minimum the
specification describes for wav_has_hard_edges. -/
def specWindowPeaks (w ch window : Nat) (bytes : List Nat) : List Nat :=
  (List.range window).map
    (fun i => _frame_peak_abs ((bytes.drop (i * (w * ch))).take (w * ch)) w ch)

/-- Threshold of the clipping and edge checks as the claims state it: max 1 of the
floor of the full-scale amplitude times the ratio clamped into the unit interval. -/
def specClampedThreshold (w : Nat) (r : ℚ) : Nat :=
  max 1 (Int.toNat ⌊(maxAmplitude w : ℚ) * min 1 (max 0 r)⌋)

/-- Effective edge window of wav_has_hard_edges: max 1 of the minimum of the
requested window and the total frame count. -/
def specEdgeWindow (totalFrames : Nat) (edge_window_frames : Int) : Nat :=
  (max 1 (min edge_window_frames (totalFrames : Int))).toNat

/-- Minimum per-frame peak of a window of frames, seeded with the full-scale
amplitude. -/
def specEdgeMin (w ch window : Nat) (bytes : List Nat) : Nat :=
  (specWindowPeaks w ch window bytes).foldl min (maxAmplitude w)

/-- Bytes of the first window frames of a stream, as read by wav_has_hard_edges. -/
def specStartBytes (wav : WavStream) (edge_window_frames : Int) : List Nat :=
  wav.data.take (specEdgeWindow wav.totalFrames edge_window_frames *
    (wav.sampleWidth * wav.channels))

/-- Bytes of the last window frames of a stream, as read by wav_has_hard_edges
after seeking to totalFrames minus the window. -/
def specEndBytes (wav : WavStream) (edge_window_frames : Int) : List Nat :=
  (wav.data.drop ((wav.totalFrames - specEdgeWindow wav.totalFrames edge_window_frames) *
    (wav.sampleWidth * wav.channels))).take
    (specEdgeWindow wav.totalFrames edge_window_frames * (wav.sampleWidth * wav.channels))


theorem silentScan_eq_all (cb sb : Nat) (hcb : 0 < cb) :
    ∀ data : List Nat, silentScan cb sb data = data.all (fun b => b == sb) := by
  have key : ∀ n (data : List Nat), data.length ≤ n →
      silentScan cb sb data = data.all (fun b => b == sb) := by
    intro n
    induction n with
    | zero =>
      intro data h
      have : data = [] := List.eq_nil_of_length_eq_zero (Nat.le_zero.mp h)
      subst this
      rw [silentScan]
      simp [hcb.ne']
    | succ n ih =>
      intro data h
      by_cases hd : data = []
      · subst hd
        rw [silentScan]
        simp [hcb.ne']
      · rw [silentScan, dif_neg hcb.ne', dif_neg hd]
        have hdpos : 0 < data.length := List.length_pos.mpr hd
        have hsplit : data.take cb ++ data.drop cb = data := List.take_append_drop cb data
        by_cases hany : (data.take cb).any (fun b => b != sb) = true
        · rw [if_pos hany]
          rcases List.any_eq_true.mp hany with ⟨x, hx, hne⟩
          have hxdata : x ∈ data := by
            rw [← hsplit]; exact List.mem_append_left _ hx
          rcases List.all_eq_true (l := data) (p := fun b => b == sb) |>.symm with _
          symm
          rw [Bool.eq_false_iff]
          intro hall
          have := List.all_eq_true.mp hall x hxdata
          simp only [beq_iff_eq] at this
          simp only [bne_iff_ne, ne_eq] at hne
          exact hne this
        · rw [if_neg hany]
          have hdrop : (data.drop cb).length ≤ n := by
            rw [List.length_drop]; omega
          rw [ih _ hdrop]
          have htake : (data.take cb).all (fun b => b == sb) = true := by
            rw [List.all_eq_true]
            intro x hx
            by_contra hne
            exact hany (List.any_eq_true.mpr ⟨x, hx, by simpa using hne⟩)
          conv_rhs => rw [← hsplit]
          rw [List.all_append, htake, Bool.true_and]
  exact fun data => key data.length data le_rfl

/-- C1: for a path with a case-insensitive .wav extension opened as a PCM stream,
is_wav_silent is true when totalFrames is zero, and otherwise true exactly when
every raw data byte equals 0x80 for sample width 1 and 0x00 for any other width;
one differing byte anywhere gives false. -/
theorem c1_is_wav_silent (suffix : String) (wav : WavStream) (chunk_frames : Nat)
    (hs : lowerSuffix suffix = wavExt) (hw : 0 < wav.sampleWidth) (hch : 0 < wav.channels)
    (hcf : 0 < chunk_frames) :
    is_wav_silent suffix wav chunk_frames =
      .ok (decide (wav.totalFrames = 0 ∨
        ∀ b ∈ wav.data, b = if wav.sampleWidth = 1 then 0x80 else 0x00)) := by
  rw [is_wav_silent, if_neg (by simp [hs])]
  by_cases h0 : wav.totalFrames = 0
  · simp [h0]
  · rw [if_neg h0]
    have hcb : 0 < chunk_frames * (wav.sampleWidth * wav.channels) :=
      Nat.mul_pos hcf (Nat.mul_pos hw hch)
    show Except.ok (silentScan (chunk_frames * (wav.sampleWidth * wav.channels))
      (if wav.sampleWidth = 1 then 0x80 else 0x00) wav.data) = _
    rw [silentScan_eq_all _ _ hcb]
    congr 1
    simp only [h0, false_or]
    rw [Bool.eq_iff_iff, List.all_eq_true, decide_eq_true_eq]
    constructor
    · intro hall b hb
      exact beq_iff_eq.mp (hall b hb)
    · intro hall b hb
      exact beq_iff_eq.mpr (hall b hb)

theorem c1_is_wav_silent_witness :
    is_wav_silent ".wav" ⟨1, 1, 3, "NONE", [0x80, 0x80, 0x80]⟩ 4096 =
      .ok (decide ((3 : Nat) = 0 ∨
        ∀ b ∈ [0x80, 0x80, 0x80], b = if (1 : Nat) = 1 then 0x80 else 0x00)) :=
  c1_is_wav_silent ".wav" ⟨1, 1, 3, "NONE", [0x80, 0x80, 0x80]⟩ 4096 (by decide)
    (by decide) (by decide) (by decide)

/-- C2: for a path with a case-insensitive .wav extension, the RIFF size check is
false without raising below 12 bytes or on wrong magic tags, and otherwise true
exactly when the little-endian 32-bit field at bytes 4..8 equals the file size
minus 8, so any corruption of the size field gives false. -/
theorem c2_wav_riff_size_matches_file (suffix : String) (file : List Nat)
    (hs : lowerSuffix suffix = wavExt) :
    (file.length < 12 → wav_riff_size_matches_file suffix file = .ok false) ∧
    (((file.take 12).take 4 ≠ riffTag ∨ ((file.take 12).drop 8).take 4 ≠ waveTag) →
      wav_riff_size_matches_file suffix file = .ok false) ∧
    (12 ≤ file.length → (file.take 12).take 4 = riffTag →
      ((file.take 12).drop 8).take 4 = waveTag →
      ((wav_riff_size_matches_file suffix file = .ok true ↔
          leNat (((file.take 12).drop 4).take 4) = file.length - 8) ∧
        (leNat (((file.take 12).drop 4).take 4) ≠ file.length - 8 →
          wav_riff_size_matches_file suffix file = .ok false))) := by
  rw [wav_riff_size_matches_file, if_neg (by simp [hs])]
  refine ⟨?_, ?_, ?_⟩
  · intro h12
    rw [if_pos h12]
  · intro hbad
    by_cases h12 : file.length < 12
    · rw [if_pos h12]
    · rw [if_neg h12, if_pos hbad]
  · intro h12 hriff hwave
    rw [if_neg (by omega), if_neg (by rw [hriff, hwave]; simp)]
    constructor
    · simp
    · intro hne
      simp [hne]

theorem c2_wav_riff_size_matches_file_witness :
    ((12 : Nat) < 12 → wav_riff_size_matches_file ".wav"
        [0x52, 0x49, 0x46, 0x46, 4, 0, 0, 0, 0x57, 0x41, 0x56, 0x45] = .ok false) ∧
    ((([0x52, 0x49, 0x46, 0x46, 4, 0, 0, 0, 0x57, 0x41, 0x56, 0x45].take 12).take 4 ≠ riffTag ∨
      (([0x52, 0x49, 0x46, 0x46, 4, 0, 0, 0, 0x57, 0x41, 0x56, 0x45].take 12).drop 8).take 4 ≠ waveTag) →
      wav_riff_size_matches_file ".wav"
        [0x52, 0x49, 0x46, 0x46, 4, 0, 0, 0, 0x57, 0x41, 0x56, 0x45] = .ok false) ∧
    (12 ≤ ([0x52, 0x49, 0x46, 0x46, 4, 0, 0, 0, 0x57, 0x41, 0x56, 0x45] : List Nat).length →
      (([0x52, 0x49, 0x46, 0x46, 4, 0, 0, 0, 0x57, 0x41, 0x56, 0x45].take 12).take 4 = riffTag →
      ((([0x52, 0x49, 0x46, 0x46, 4, 0, 0, 0, 0x57, 0x41, 0x56, 0x45].take 12)).drop 8).take 4 = waveTag →
      ((wav_riff_size_matches_file ".wav"
          [0x52, 0x49, 0x46, 0x46, 4, 0, 0, 0, 0x57, 0x41, 0x56, 0x45] = .ok true ↔
          leNat ((([0x52, 0x49, 0x46, 0x46, 4, 0, 0, 0, 0x57, 0x41, 0x56, 0x45].take 12).drop 4).take 4) =
            ([0x52, 0x49, 0x46, 0x46, 4, 0, 0, 0, 0x57, 0x41, 0x56, 0x45] : List Nat).length - 8) ∧
        (leNat ((([0x52, 0x49, 0x46, 0x46, 4, 0, 0, 0, 0x57, 0x41, 0x56, 0x45].take 12).drop 4).take 4) ≠
            ([0x52, 0x49, 0x46, 0x46, 4, 0, 0, 0, 0x57, 0x41, 0x56, 0x45] : List Nat).length - 8 →
          wav_riff_size_matches_file ".wav"
            [0x52, 0x49, 0x46, 0x46, 4, 0, 0, 0, 0x57, 0x41, 0x56, 0x45] = .ok false)))) :=
  c2_wav_riff_size_matches_file ".wav"
    [0x52, 0x49, 0x46, 0x46, 4, 0, 0, 0, 0x57, 0x41, 0x56, 0x45] (by decide)

/-- C7: the 24-bit decode shared by the edge and clipping checks sign-extends from
the top bit of the most significant byte: 0x00 0x00 0x80 decodes to -8388608,
0x00 0x00 0x00 to 0, and 0xFF 0xFF 0x7F to 8388607. -/
theorem c7_decode24_sign_extension :
    decodeSample 3 [0x00, 0x00, 0x80] = -8388608 ∧
    decodeSample 3 [0x00, 0x00, 0x00] = 0 ∧
    decodeSample 3 [0xFF, 0xFF, 0x7F] = 8388607 := by
  refine ⟨by decide, by decide, by decide⟩

/-- C3: for a wav file of at least 12 bytes with valid RIFF and WAVE tags, the
loop-point check walks chunks from offset 12: fewer than 8 remaining bytes give
false; the first smpl chunk alone decides the verdict, false when its declared
size is below 36 or fewer than 36 payload bytes are available, otherwise true
exactly when the little-endian count at payload bytes 28..32 is positive; any
other chunk is skipped over its declared size plus one pad byte when odd. -/
theorem c3_wav_has_loop_points (suffix : String) (file : List Nat)
    (hs : lowerSuffix suffix = wavExt) (h12 : 12 ≤ file.length)
    (hriff : (file.take 12).take 4 = riffTag)
    (hwave : ((file.take 12).drop 8).take 4 = waveTag) :
    wav_has_loop_points suffix file = .ok (loopPointsScan (file.drop 12)) ∧
    (∀ rest : List Nat, rest.length < 8 → loopPointsScan rest = false) ∧
    (∀ rest : List Nat, 8 ≤ rest.length → rest.take 4 = smplTag →
      loopPointsScan rest =
        if leNat ((rest.drop 4).take 4) < 36 ∨ ((rest.drop 8).take 36).length < 36 then false
        else decide (0 < leNat ((((rest.drop 8).take 36).drop 28).take 4))) ∧
    (∀ rest : List Nat, 8 ≤ rest.length → rest.take 4 ≠ smplTag →
      loopPointsScan rest = loopPointsScan (rest.drop
        (8 + (leNat ((rest.drop 4).take 4) + leNat ((rest.drop 4).take 4) % 2)))) := by
  refine ⟨?_, ?_, ?_, ?_⟩
  · rw [wav_has_loop_points, if_neg (by simp [hs]), if_neg (by omega)]
    rw [if_neg (by rw [hriff, hwave]; simp)]
  · intro rest h
    rw [loopPointsScan, dif_pos h]
  · intro rest h8 hsmpl
    rw [loopPointsScan, dif_neg (by omega)]
    simp only [hsmpl, if_true, if_pos rfl]
    by_cases h36 : leNat ((rest.drop 4).take 4) < 36
    · rw [if_pos h36, if_pos (Or.inl h36)]
    · rw [if_neg h36]
      by_cases hlen : ((rest.drop 8).take 36).length < 36
      · rw [if_pos hlen, if_pos (Or.inr hlen)]
      · rw [if_neg hlen, if_neg (by omega)]
  · intro rest h8 hns
    rw [loopPointsScan, dif_neg (by omega), if_neg hns]

theorem c3_wav_has_loop_points_witness :
    wav_has_loop_points ".wav"
        [0x52, 0x49, 0x46, 0x46, 4, 0, 0, 0, 0x57, 0x41, 0x56, 0x45] =
      .ok (loopPointsScan
        ([0x52, 0x49, 0x46, 0x46, 4, 0, 0, 0, 0x57, 0x41, 0x56, 0x45].drop 12)) ∧
    (∀ rest : List Nat, rest.length < 8 → loopPointsScan rest = false) ∧
    (∀ rest : List Nat, 8 ≤ rest.length → rest.take 4 = smplTag →
      loopPointsScan rest =
        if leNat ((rest.drop 4).take 4) < 36 ∨ ((rest.drop 8).take 36).length < 36 then false
        else decide (0 < leNat ((((rest.drop 8).take 36).drop 28).take 4))) ∧
    (∀ rest : List Nat, 8 ≤ rest.length → rest.take 4 ≠ smplTag →
      loopPointsScan rest = loopPointsScan (rest.drop
        (8 + (leNat ((rest.drop 4).take 4) + leNat ((rest.drop 4).take 4) % 2)))) :=
  c3_wav_has_loop_points ".wav"
    [0x52, 0x49, 0x46, 0x46, 4, 0, 0, 0, 0x57, 0x41, 0x56, 0x45]
    (by decide) (by decide) (by decide) (by decide)

theorem foldl_min_le_init (l : List Nat) (a : Nat) : l.foldl min a ≤ a := by
  induction l generalizing a with
  | nil => exact le_rfl
  | cons x xs ih => exact le_trans (ih (min a x)) (min_le_left a x)

theorem maxAmplitude_pos (w : Nat) (hw : w = 1 ∨ w = 2 ∨ w = 3 ∨ w = 4) :
    1 ≤ maxAmplitude w := by
  rcases hw with h | h | h | h <;> subst h <;> decide

theorem clamped_threshold_lt_iff (w : Nat) (r : ℚ) (M : Nat)
    (hw : 1 ≤ maxAmplitude w) (hM : M ≤ maxAmplitude w) :
    (max 1 (Int.toNat ⌊(maxAmplitude w : ℚ) * max 0 r⌋) < M ↔
      specClampedThreshold w r < M) := by
  rcases le_or_lt r 1 with h1 | h1
  · have hmin : min 1 (max 0 r) = max 0 r :=
      min_eq_right (max_le (by norm_num) h1)
    rw [specClampedThreshold, hmin]
  · have hr0 : max 0 r = r := max_eq_right (by linarith)
    have hmin : min 1 (max 0 r) = 1 := by
      rw [hr0]; exact min_eq_left (le_of_lt h1)
    have hts : specClampedThreshold w r = maxAmplitude w := by
      rw [specClampedThreshold, hmin, mul_one, Int.floor_natCast, Int.toNat_natCast]
      exact Nat.max_eq_right hw
    have htc : maxAmplitude w ≤ max 1 (Int.toNat ⌊(maxAmplitude w : ℚ) * max 0 r⌋) := by
      have hfl : (maxAmplitude w : ℤ) ≤ ⌊(maxAmplitude w : ℚ) * max 0 r⌋ := by
        rw [Int.le_floor, hr0]
        push_cast
        nlinarith [Nat.cast_nonneg (α := ℚ) (maxAmplitude w)]
      have := Int.toNat_le_toNat hfl
      rw [Int.toNat_natCast] at this
      exact le_trans this (le_max_right _ _)
    rw [hts]
    omega


/-- C6 counterexample: a 16-bit mono stream holding the single most negative
sample, with ratio 1.  The unique per-frame peak is 32768, strictly above the
clamped threshold 32767, so the claim as stated predicts true, but the code seeds
its running minimum with the full-scale amplitude 32767 and returns false. -/
theorem c6_counterexample :
    wav_has_hard_edges ".wav" ⟨2, 1, 1, "NONE", [0x00, 0x80]⟩ 1 64 = .ok false ∧
    specWindowPeaks 2 1 1 [0x00, 0x80] = [32768] ∧
    specClampedThreshold 2 1 = 32767 := by
  have hA : maxAmplitude 2 = 32767 := by decide
  have hth : Int.toNat ⌊(maxAmplitude 2 : ℚ) * max 0 (1 : ℚ)⌋ = 32767 := by
    rw [hA, max_eq_right zero_le_one, mul_one, Int.floor_natCast, Int.toNat_natCast]
  have hts : Int.toNat ⌊(maxAmplitude 2 : ℚ) * min 1 (max 0 (1 : ℚ))⌋ = 32767 := by
    rw [hA, max_eq_right zero_le_one, min_self, mul_one, Int.floor_natCast, Int.toNat_natCast]
  refine ⟨?_, by decide, ?_⟩
  · rw [wav_has_hard_edges]
    rw [if_neg (by decide), if_neg (by decide), if_neg (by decide), if_neg (by decide)]
    dsimp only
    rw [hth]
    decide
  · rw [specClampedThreshold, hts]
    decide

theorem foldl_max_init_le (l : List Nat) (a : Nat) : a ≤ l.foldl max a := by
  induction l generalizing a with
  | nil => exact le_rfl
  | cons x xs ih => exact le_trans (le_max_left a x) (ih (max a x))

theorem le_foldl_max_of_mem {l : List Nat} {x : Nat} (a : Nat) (h : x ∈ l) :
    x ≤ l.foldl max a := by
  induction l generalizing a with
  | nil => cases h
  | cons y ys ih =>
    rcases List.mem_cons.mp h with rfl | hmem
    · exact le_trans (le_max_right a x) (foldl_max_init_le ys (max a x))
    · exact ih (max a y) hmem

theorem decode1_bias (b : Nat) (hb : b < 256) :
    leSigned [(b + 128) % 256] = (b : Int) - 128 := by
  rcases Nat.lt_or_ge b 128 with h | h
  · have hx : (b + 128) % 256 = b + 128 := Nat.mod_eq_of_lt (by omega)
    rw [hx, leSigned]
    simp only [leNat, List.length_cons, List.length_nil]
    rw [if_neg (by omega)]
    push_cast
    omega
  · have hx : (b + 128) % 256 = b - 128 := by omega
    rw [hx, leSigned]
    simp only [leNat, List.length_cons, List.length_nil]
    rw [if_pos (by omega)]
    push_cast
    omega

theorem decode3_eq (s : List Nat) (hlen : s.length = 3) (hb : ∀ x ∈ s, x < 256) :
    decodeSample 3 s = leSigned s := by
  match s, hlen with
  | [a, b, c], _ =>
    have ha : a < 256 := hb a (by simp)
    have hbb : b < 256 := hb b (by simp)
    have hc : c < 256 := hb c (by simp)
    rw [decodeSample, if_neg (by omega), if_pos rfl]
    have hland : (c &&& 128 ≠ 0) ↔ 128 ≤ c := by
      have h1 : c &&& 128 = (c.testBit 7).toNat * 128 := by
        have := Nat.and_two_pow c 7
        norm_num at this ⊢
        exact this
      rw [Nat.testBit_to_div_mod] at h1
      rcases Nat.lt_or_ge c 128 with h | h
      · have : c / 2 ^ 7 = 0 := Nat.div_eq_of_lt (by omega)
        rw [h1, this]
        simp
        omega
      · have : c / 2 ^ 7 = 1 := by
          have h128 : c / 128 = 1 := by omega
          simpa using h128
        rw [h1, this]
        norm_num
        omega
    by_cases hsign : c &&& 128 ≠ 0
    · have hc128 : 128 ≤ c := hland.mp hsign
      show leSigned ([a, b, c] ++ [if c &&& 128 ≠ 0 then 255 else 0]) = leSigned [a, b, c]
      rw [if_pos hsign]
      show leSigned [a, b, c, 255] = leSigned [a, b, c]
      rw [leSigned, leSigned]
      simp only [leNat, List.length_cons, List.length_nil]
      rw [if_neg (by push_cast; omega), if_neg (by push_cast; omega)]
      push_cast
      ring_nf
    · have hc128 : c < 128 := by
        rcases Nat.lt_or_ge c 128 with h | h
        · exact h
        · exact absurd (hland.mpr h) hsign
      show leSigned ([a, b, c] ++ [if c &&& 128 ≠ 0 then 255 else 0]) = leSigned [a, b, c]
      rw [if_neg hsign]
      show leSigned [a, b, c, 0] = leSigned [a, b, c]
      rw [leSigned, leSigned]
      simp only [leNat, List.length_cons, List.length_nil]
      rw [if_pos (by push_cast; omega), if_pos (by push_cast; omega)]

theorem scanSamples_spec (th mh : Nat) :
    ∀ (s : List Int) (hits : Nat), hits < mh →
      scanSamples th mh hits s =
        (if mh ≤ hits + s.countP (fun v => decide (th ≤ v.natAbs)) then none
         else some (hits + s.countP (fun v => decide (th ≤ v.natAbs)))) := by
  intro s
  induction s with
  | nil =>
    intro hits h
    rw [scanSamples]
    simp only [List.countP_nil, Nat.add_zero]
    rw [if_neg (by omega)]
  | cons v rest ih =>
    intro hits h
    rw [scanSamples]
    by_cases hv : th ≤ v.natAbs
    · rw [if_pos hv, List.countP_cons_of_pos _ _ (by simpa using hv)]
      by_cases hm : mh ≤ hits + 1
      · rw [if_pos hm, if_pos (by omega)]
      · rw [if_neg hm, ih (hits + 1) (by omega)]
        have he : hits + 1 + rest.countP (fun v => decide (th ≤ v.natAbs)) =
            hits + (rest.countP (fun v => decide (th ≤ v.natAbs)) + 1) := by omega
        rw [he]
    · rw [if_neg hv, ih hits h, List.countP_cons_of_neg _ _ (by simpa using hv)]

theorem chunkSamples_nil (w ch : Nat) : chunkSamples w ch [] = [] := by
  rw [chunkSamples]
  simp

theorem chunkSamples_append (w ch : Nat) (c1 c2 : List Nat)
    (h : (w * ch) ∣ c1.length) :
    chunkSamples w ch (c1 ++ c2) = chunkSamples w ch c1 ++ chunkSamples w ch c2 := by
  by_cases hfs : w * ch = 0
  · rw [chunkSamples, chunkSamples, chunkSamples, hfs]
    simp
  · have hfspos : 0 < w * ch := Nat.pos_of_ne_zero hfs
    obtain ⟨k, hk⟩ := h
    have hlen : (c1 ++ c2).length = w * ch * k + c2.length := by
      rw [List.length_append, hk]
    have hdiv : (c1 ++ c2).length / (w * ch) = k + c2.length / (w * ch) := by
      rw [hlen, Nat.mul_add_div hfspos]
    have hdiv1 : c1.length / (w * ch) = k := by
      rw [hk, Nat.mul_div_cancel_left _ hfspos]
    rw [chunkSamples, chunkSamples, chunkSamples, hdiv, hdiv1, List.range_add]
    rw [List.flatMap_append]
    congr 1
    · -- chunks fully inside c1
      apply List.flatMap_congr  -- may not exist; fallback below
      intro i hi
      have hik : i < k := List.mem_range.mp hi
      apply List.map_congr_left
      intro c hc
      have hcch : c < ch := List.mem_range.mp hc
      have how : i * (w * ch) + c * w + w ≤ c1.length := by
        rw [hk]
        have h1 : c * w + w ≤ ch * w := by
          have := Nat.succ_le_of_lt hcch
          calc c * w + w = (c + 1) * w := by ring
          _ ≤ ch * w := Nat.mul_le_mul_right w this
        have h2 : i * (w * ch) + w * ch ≤ w * ch * k := by
          have := Nat.succ_le_of_lt hik
          calc i * (w * ch) + w * ch = (i + 1) * (w * ch) := by ring
          _ ≤ k * (w * ch) := Nat.mul_le_mul_right _ this
          _ = w * ch * k := by ring
        have h3 : ch * w ≤ w * ch := by rw [Nat.mul_comm]
        omega
      have hole : i * (w * ch) + c * w ≤ c1.length := by omega
      rw [List.drop_append_of_le_length hole]
      rw [List.take_append_of_le_length (by rw [List.length_drop]; omega)]
    · -- chunks inside c2, reindexed
      rw [List.flatMap_map]
      apply List.flatMap_congr
      intro i hi
      apply List.map_congr_left
      intro c hc
      have harith : (k + i) * (w * ch) + c * w = c1.length + (i * (w * ch) + c * w) := by
        rw [hk]; ring
      rw [harith, ← List.drop_drop, List.drop_left' rfl]

theorem chunk_peak_ok (w : Nat) (frames : List Nat) (h : w ∣ frames.length) :
    chunk_peak w frames =
      .ok (if w = 1 then
        ((List.range (audioop_bias frames).length).map
          (fun i => (leSigned (((audioop_bias frames).drop i).take 1)).natAbs)).foldl max 0
      else
        ((List.range (frames.length / w)).map
          (fun i => (leSigned ((frames.drop (i * w)).take w)).natAbs)).foldl max 0) := by
  by_cases h1 : w = 1
  · subst h1
    rw [chunk_peak, if_pos rfl, audioop_max, if_neg (by simp [Nat.mod_one]), if_pos rfl]
    simp [Nat.div_one]
  · have hmod : frames.length % w = 0 := by
      obtain ⟨k, hk⟩ := h
      rw [hk]
      exact Nat.mul_mod_right w k
    rw [chunk_peak, if_neg h1, audioop_max, if_neg (by simp [hmod]), if_neg h1]

theorem chunk_peak_bound (w ch : Nat) (frames : List Nat)
    (hw : w = 1 ∨ w = 2 ∨ w = 3 ∨ w = 4)
    (hb : ∀ b ∈ frames, b < 256) (hal : w ∣ frames.length) :
    ∃ p, chunk_peak w frames = .ok p ∧
      ∀ v ∈ chunkSamples w ch frames, v.natAbs ≤ p := by
  refine ⟨_, chunk_peak_ok w frames hal, ?_⟩
  intro v hv
  rw [chunkSamples] at hv
  rcases List.mem_flatMap.mp hv with ⟨i, hi, hvin⟩
  rcases List.mem_map.mp hvin with ⟨c, hc, hvc⟩
  have hik : i < frames.length / (w * ch) := List.mem_range.mp hi
  have hcch : c < ch := List.mem_range.mp hc
  have hchpos : 0 < ch := Nat.pos_of_ne_zero (by rintro rfl; omega)
  have hwpos : 0 < w := by rcases hw with h | h | h | h <;> omega
  have hslot : (i * ch + c + 1) * w ≤ frames.length := by
    have h1 : i * ch + c + 1 ≤ frames.length / (w * ch) * ch := by
      have hii : i + 1 ≤ frames.length / (w * ch) := hik
      calc i * ch + c + 1 ≤ i * ch + ch := by omega
      _ = (i + 1) * ch := by ring
      _ ≤ frames.length / (w * ch) * ch := Nat.mul_le_mul_right ch hii
    have h2 : frames.length / (w * ch) * ch ≤ frames.length / w := by
      have hdd : frames.length / (w * ch) = frames.length / w / ch := by
        rw [Nat.div_div_eq_div_mul]
      rw [hdd]
      exact Nat.div_mul_le_self _ _
    calc (i * ch + c + 1) * w ≤ frames.length / w * w :=
          Nat.mul_le_mul_right w (le_trans h1 h2)
    _ ≤ frames.length := Nat.div_mul_le_self _ _
  by_cases h1 : w = 1
  · subst h1
    rw [if_pos rfl]
    have holt : i * ch + c < frames.length := by omega
    have hoeq : i * (1 * ch) + c * 1 = i * ch + c := by ring
    have hslice : (frames.drop (i * (1 * ch) + c * 1)).take 1 = [frames[i * ch + c]] := by
      rw [hoeq, List.drop_eq_getElem_cons holt]
      rfl
    have hval : decodeSample 1 [frames[i * ch + c]] = (frames[i * ch + c] : Int) - 128 := by
      rw [decodeSample, if_pos rfl]
      simp
    have hlenb : i * ch + c < (audioop_bias frames).length := by
      rw [audioop_bias, List.length_map]
      omega
    have hbias : ((audioop_bias frames).drop (i * ch + c)).take 1 =
        [(frames[i * ch + c] + 128) % 256] := by
      rw [List.drop_eq_getElem_cons hlenb]
      simp [audioop_bias]
    have hmem : (leSigned (((audioop_bias frames).drop (i * ch + c)).take 1)).natAbs ∈
        (List.range (audioop_bias frames).length).map
          (fun j => (leSigned (((audioop_bias frames).drop j).take 1)).natAbs) :=
      List.mem_map.mpr ⟨i * ch + c, List.mem_range.mpr hlenb, rfl⟩
    have hdecode : leSigned (((audioop_bias frames).drop (i * ch + c)).take 1) =
        decodeSample 1 ((frames.drop (i * (1 * ch) + c * 1)).take 1) := by
      rw [hbias, hslice, hval]
      exact decode1_bias _ (hb _ (List.getElem_mem holt))
    rw [← hvc, ← hdecode]
    exact le_foldl_max_of_mem 0 hmem
  · rw [if_neg h1]
    have hoeq : i * (w * ch) + c * w = (i * ch + c) * w := by ring
    have hlt : i * ch + c + 1 ≤ frames.length / w :=
      (Nat.le_div_iff_mul_le hwpos).mpr hslot
    have hlenslice : ((frames.drop ((i * ch + c) * w)).take w).length = w := by
      rw [List.length_take, List.length_drop]
      have hle : (i * ch + c) * w + w ≤ frames.length := by
        have he : (i * ch + c) * w + w = (i * ch + c + 1) * w := by ring
        omega
      omega
    have hbytes : ∀ x ∈ (frames.drop ((i * ch + c) * w)).take w, x < 256 := fun x hx =>
      hb x (List.mem_of_mem_drop (List.mem_of_mem_take hx))
    have hdec : decodeSample w ((frames.drop ((i * ch + c) * w)).take w) =
        leSigned ((frames.drop ((i * ch + c) * w)).take w) := by
      rcases hw with h | h | h | h
      · omega
      · rw [decodeSample, if_neg h1, if_neg (by omega)]
      · subst h
        exact decode3_eq _ hlenslice hbytes
      · rw [decodeSample, if_neg h1, if_neg (by omega)]
    have hmem : (leSigned ((frames.drop ((i * ch + c) * w)).take w)).natAbs ∈
        (List.range (frames.length / w)).map
          (fun j => (leSigned ((frames.drop (j * w)).take w)).natAbs) :=
      List.mem_map.mpr ⟨i * ch + c, List.mem_range.mpr (by omega), rfl⟩
    rw [← hvc, hoeq, hdec]
    exact le_foldl_max_of_mem 0 hmem

theorem countP_chunk_split (w ch th cb : Nat) (hfscb : (w * ch) ∣ cb) (data : List Nat) :
    (chunkSamples w ch data).countP (fun v => decide (th ≤ v.natAbs)) =
      (chunkSamples w ch (data.take cb)).countP (fun v => decide (th ≤ v.natAbs)) +
      (chunkSamples w ch (data.drop cb)).countP (fun v => decide (th ≤ v.natAbs)) := by
  by_cases hle : data.length ≤ cb
  · rw [List.take_of_length_le hle, List.drop_of_length_le hle, chunkSamples_nil]
    simp
  · have hlen : (data.take cb).length = cb := by
      rw [List.length_take]
      omega
    conv_lhs => rw [← List.take_append_drop cb data]
    rw [chunkSamples_append w ch _ _ (by rw [hlen]; exact hfscb), List.countP_append]

theorem clipLoop_spec (w ch th mh cb : Nat)
    (hw : w = 1 ∨ w = 2 ∨ w = 3 ∨ w = 4) (hcb : 0 < cb)
    (hwcb : w ∣ cb) (hfscb : (w * ch) ∣ cb) :
    ∀ (n : Nat) (data : List Nat) (hits : Nat), data.length ≤ n →
      (∀ b ∈ data, b < 256) → w ∣ data.length → hits < mh →
      clipLoop w ch th mh cb hits data =
        .ok (decide (mh ≤ hits +
          (chunkSamples w ch data).countP (fun v => decide (th ≤ v.natAbs)))) := by
  intro n
  induction n with
  | zero =>
    intro data hits hlen hb hdvd hhits
    have hdata : data = [] := List.eq_nil_of_length_eq_zero (Nat.le_zero.mp hlen)
    subst hdata
    rw [clipLoop, dif_neg hcb.ne', dif_pos rfl, chunkSamples_nil]
    simp only [List.countP_nil, Nat.add_zero]
    rw [decide_eq_false (by omega)]
  | succ n ih =>
    intro data hits hlen hb hdvd hhits
    by_cases hd : data = []
    · subst hd
      rw [clipLoop, dif_neg hcb.ne', dif_pos rfl, chunkSamples_nil]
      simp only [List.countP_nil, Nat.add_zero]
      rw [decide_eq_false (by omega)]
    · rw [clipLoop, dif_neg hcb.ne', dif_neg hd]
      have htake : w ∣ (data.take cb).length := by
        rw [List.length_take]
        rcases le_total cb data.length with hle | hle
        · rw [min_eq_left hle]
          exact hwcb
        · rw [min_eq_right hle]
          exact hdvd
      obtain ⟨p, hp, hbound⟩ := chunk_peak_bound w ch (data.take cb) hw
        (fun b hb' => hb b (List.mem_of_mem_take hb')) htake
      rw [hp]
      dsimp only
      have hdropb : ∀ b ∈ data.drop cb, b < 256 :=
        fun b hb' => hb b (List.mem_of_mem_drop hb')
      have hdropd : w ∣ (data.drop cb).length := by
        rw [List.length_drop]
        exact Nat.dvd_sub' hdvd hwcb
      have hdropn : (data.drop cb).length ≤ n := by
        rw [List.length_drop]
        have : 0 < data.length := List.length_pos.mpr hd
        omega
      by_cases hskip : p < th
      · rw [if_pos hskip]
        have hcount0 : (chunkSamples w ch (data.take cb)).countP
            (fun v => decide (th ≤ v.natAbs)) = 0 := by
          rw [List.countP_eq_zero]
          intro a ha
          have := hbound a ha
          simp only [decide_eq_true_eq]
          omega
        rw [ih (data.drop cb) hits hdropn hdropb hdropd hhits,
          countP_chunk_split w ch th cb hfscb data, hcount0, Nat.zero_add]
      · rw [if_neg hskip, scanSamples_spec th mh _ hits hhits]
        by_cases hreach : mh ≤ hits + (chunkSamples w ch (data.take cb)).countP
            (fun v => decide (th ≤ v.natAbs))
        · rw [if_pos hreach]
          have hge : mh ≤ hits + (chunkSamples w ch data).countP
              (fun v => decide (th ≤ v.natAbs)) := by
            rw [countP_chunk_split w ch th cb hfscb data]
            omega
          rw [decide_eq_true hge]
        · rw [if_neg hreach]
          dsimp only
          rw [ih (data.drop cb) _ hdropn hdropb hdropd (by omega)]
          have he : hits + (chunkSamples w ch (data.take cb)).countP
                (fun v => decide (th ≤ v.natAbs)) +
              (chunkSamples w ch (data.drop cb)).countP (fun v => decide (th ≤ v.natAbs)) =
              hits + (chunkSamples w ch data).countP (fun v => decide (th ≤ v.natAbs)) := by
            rw [countP_chunk_split w ch th cb hfscb data]
            omega
          rw [he]

theorem clipLoopNaive_spec (w ch th mh cb : Nat) (hcb : 0 < cb)
    (hfscb : (w * ch) ∣ cb) :
    ∀ (n : Nat) (data : List Nat) (hits : Nat), data.length ≤ n → hits < mh →
      clipLoopNaive w ch th mh cb hits data =
        decide (mh ≤ hits +
          (chunkSamples w ch data).countP (fun v => decide (th ≤ v.natAbs))) := by
  intro n
  induction n with
  | zero =>
    intro data hits hlen hhits
    have hdata : data = [] := List.eq_nil_of_length_eq_zero (Nat.le_zero.mp hlen)
    subst hdata
    rw [clipLoopNaive, dif_neg hcb.ne', dif_pos rfl, chunkSamples_nil]
    simp only [List.countP_nil, Nat.add_zero]
    rw [decide_eq_false (by omega)]
  | succ n ih =>
    intro data hits hlen hhits
    by_cases hd : data = []
    · subst hd
      rw [clipLoopNaive, dif_neg hcb.ne', dif_pos rfl, chunkSamples_nil]
      simp only [List.countP_nil, Nat.add_zero]
      rw [decide_eq_false (by omega)]
    · rw [clipLoopNaive, dif_neg hcb.ne', dif_neg hd, scanSamples_spec th mh _ hits hhits]
      have hdropn : (data.drop cb).length ≤ n := by
        rw [List.length_drop]
        have : 0 < data.length := List.length_pos.mpr hd
        omega
      by_cases hreach : mh ≤ hits + (chunkSamples w ch (data.take cb)).countP
          (fun v => decide (th ≤ v.natAbs))
      · rw [if_pos hreach]
        have hge : mh ≤ hits + (chunkSamples w ch data).countP
            (fun v => decide (th ≤ v.natAbs)) := by
          rw [countP_chunk_split w ch th cb hfscb data]
          omega
        rw [decide_eq_true hge]
      · rw [if_neg hreach]
        dsimp only
        rw [ih (data.drop cb) _ hdropn (by omega)]
        have he : hits + (chunkSamples w ch (data.take cb)).countP
              (fun v => decide (th ≤ v.natAbs)) +
            (chunkSamples w ch (data.drop cb)).countP (fun v => decide (th ≤ v.natAbs)) =
            hits + (chunkSamples w ch data).countP (fun v => decide (th ≤ v.natAbs)) := by
          rw [countP_chunk_split w ch th cb hfscb data]
          omega
        rw [he]

theorem foldl_min_apply_le_init {a : Type} (l : List a) (f : a → Nat) (i : Nat) :
    l.foldl (fun acc x => min acc (f x)) i ≤ i := by
  induction l generalizing i with
  | nil => exact le_rfl
  | cons x xs ih => exact le_trans (ih (min i (f x))) (min_le_left _ _)

/-- C6, amended: with the ratio clamped into the unit interval, the edge check
returns false on zero frames, and otherwise returns true exactly when the minimum
per-frame peak over the start window or over the end window, in both cases seeded
with the full-scale amplitude, strictly exceeds the threshold.  The seeding is the
amendment: a window whose every frame peaks at the full 2^(8w-1) magnitude is
capped at maxAmplitude by the code. -/
theorem c6_amended_wav_has_hard_edges (suffix : String) (wav : WavStream)
    (zero_threshold_ratio : ℚ) (edge_window_frames : Int)
    (hs : lowerSuffix suffix = wavExt) (hcomp : wav.compType = "NONE")
    (hw : wav.sampleWidth = 1 ∨ wav.sampleWidth = 2 ∨ wav.sampleWidth = 3 ∨
      wav.sampleWidth = 4) :
    (wav.totalFrames = 0 →
      wav_has_hard_edges suffix wav zero_threshold_ratio edge_window_frames = .ok false) ∧
    (wav.totalFrames ≠ 0 →
      wav_has_hard_edges suffix wav zero_threshold_ratio edge_window_frames =
        .ok (decide
          (specClampedThreshold wav.sampleWidth zero_threshold_ratio <
              specEdgeMin wav.sampleWidth wav.channels
                (specEdgeWindow wav.totalFrames edge_window_frames)
                (specStartBytes wav edge_window_frames) ∨
            specClampedThreshold wav.sampleWidth zero_threshold_ratio <
              specEdgeMin wav.sampleWidth wav.channels
                (specEdgeWindow wav.totalFrames edge_window_frames)
                (specEndBytes wav edge_window_frames)))) := by
  constructor
  · intro h0
    rw [wav_has_hard_edges, if_neg (by simp [hs]), if_neg (by simp [hcomp]), if_pos h0]
  · intro h0
    rw [wav_has_hard_edges, if_neg (by simp [hs]), if_neg (by simp [hcomp]), if_neg h0,
      if_neg (not_not.mpr hw)]
    dsimp only
    congr 1
    rw [decide_eq_decide]
    simp only [specEdgeMin, specWindowPeaks, specStartBytes, specEndBytes, specEdgeWindow,
      List.foldl_map]
    refine or_congr
      (clamped_threshold_lt_iff _ _ _ (maxAmplitude_pos _ hw) ?_)
      (clamped_threshold_lt_iff _ _ _ (maxAmplitude_pos _ hw) ?_)
    · exact foldl_min_apply_le_init _ _ _
    · exact foldl_min_apply_le_init _ _ _

theorem c6_amended_wav_has_hard_edges_witness :
    ((⟨2, 1, 1, "NONE", [0x00, 0x80]⟩ : WavStream).totalFrames = 0 →
      wav_has_hard_edges ".wav" ⟨2, 1, 1, "NONE", [0x00, 0x80]⟩ 1 64 = .ok false) ∧
    ((⟨2, 1, 1, "NONE", [0x00, 0x80]⟩ : WavStream).totalFrames ≠ 0 →
      wav_has_hard_edges ".wav" ⟨2, 1, 1, "NONE", [0x00, 0x80]⟩ 1 64 =
        .ok (decide
          (specClampedThreshold 2 1 <
              specEdgeMin 2 1 (specEdgeWindow 1 64) (specStartBytes ⟨2, 1, 1, "NONE", [0x00, 0x80]⟩ 64) ∨
            specClampedThreshold 2 1 <
              specEdgeMin 2 1 (specEdgeWindow 1 64) (specEndBytes ⟨2, 1, 1, "NONE", [0x00, 0x80]⟩ 64)))) :=
  c6_amended_wav_has_hard_edges ".wav" ⟨2, 1, 1, "NONE", [0x00, 0x80]⟩ 1 64
    (by decide) rfl (by decide)

theorem wav_has_clipping_char (suffix : String) (wav : WavStream) (r : ℚ) (m : Int)
    (cf : Nat) (hs : lowerSuffix suffix = wavExt) (hcomp : wav.compType = "NONE")
    (hw : wav.sampleWidth = 1 ∨ wav.sampleWidth = 2 ∨ wav.sampleWidth = 3 ∨
      wav.sampleWidth = 4)
    (hch : 0 < wav.channels) (hb : ∀ b ∈ wav.data, b < 256)
    (hdvd : wav.sampleWidth ∣ wav.data.length) (hcf : 0 < cf) :
    wav_has_clipping suffix wav r m cf =
      .ok (decide ((max 1 m).toNat ≤ specClippedCount wav.sampleWidth wav.channels
        (specClampedThreshold wav.sampleWidth r) wav.data)) := by
  have hwpos : 0 < wav.sampleWidth := by rcases hw with h | h | h | h <;> omega
  have hcb : 0 < cf * (wav.sampleWidth * wav.channels) :=
    Nat.mul_pos hcf (Nat.mul_pos hwpos hch)
  have hwcb : wav.sampleWidth ∣ cf * (wav.sampleWidth * wav.channels) :=
    ⟨cf * wav.channels, by ring⟩
  have hfscb : (wav.sampleWidth * wav.channels) ∣ cf * (wav.sampleWidth * wav.channels) :=
    ⟨cf, by ring⟩
  have hmh : 0 < (max 1 m).toNat := by
    have h1 : (1 : Int) ≤ max 1 m := le_max_left 1 m
    omega
  rw [wav_has_clipping, if_neg (by simp [hs]), if_neg (by simp [hcomp]),
    if_neg (not_not.mpr hw), if_neg (by omega)]
  dsimp only
  rw [clipLoop_spec wav.sampleWidth wav.channels _ _ _ hw hcb hwcb hfscb
    wav.data.length wav.data 0 le_rfl hb hdvd hmh, Nat.zero_add]
  rw [specClippedCount, specClampedThreshold]

/-- C4: with minClippedSamples 3, the clipping check returns true exactly when at
least 3 decoded samples across all frames and channels reach the threshold
max 1 (floor of maxAmplitude times the clamped ratio); with exactly 2 such samples
it returns false at end of file, and once 3 hits exist in a prefix the verdict is
true regardless of anything appended after that point. -/
theorem c4_wav_has_clipping (suffix : String) (wav : WavStream) (r : ℚ) (cf : Nat)
    (hs : lowerSuffix suffix = wavExt) (hcomp : wav.compType = "NONE")
    (hw : wav.sampleWidth = 1 ∨ wav.sampleWidth = 2 ∨ wav.sampleWidth = 3 ∨
      wav.sampleWidth = 4)
    (hch : 0 < wav.channels) (hb : ∀ b ∈ wav.data, b < 256)
    (hfull : wav.data.length = wav.totalFrames * (wav.sampleWidth * wav.channels))
    (hcf : 0 < cf) :
    wav_has_clipping suffix wav r 3 cf =
      .ok (decide (3 ≤ specClippedCount wav.sampleWidth wav.channels
        (specClampedThreshold wav.sampleWidth r) wav.data)) ∧
    (∀ extra : List Nat, (∀ b ∈ extra, b < 256) → wav.sampleWidth ∣ extra.length →
      3 ≤ specClippedCount wav.sampleWidth wav.channels
        (specClampedThreshold wav.sampleWidth r) wav.data →
      wav_has_clipping suffix
        ⟨wav.sampleWidth, wav.channels, wav.totalFrames, wav.compType, wav.data ++ extra⟩
        r 3 cf = .ok true) := by
  have hdvd : wav.sampleWidth ∣ wav.data.length :=
    ⟨wav.totalFrames * wav.channels, by rw [hfull]; ring⟩
  have hfsdvd : (wav.sampleWidth * wav.channels) ∣ wav.data.length :=
    ⟨wav.totalFrames, by rw [hfull]; ring⟩
  have h3 : (max 1 (3 : Int)).toNat = 3 := by decide
  constructor
  · have hc := wav_has_clipping_char suffix wav r 3 cf hs hcomp hw hch hb hdvd hcf
    rw [h3] at hc
    exact hc
  · intro extra hbe hde hcount
    have hbb : ∀ b ∈ wav.data ++ extra, b < 256 := by
      intro b hbmem
      rcases List.mem_append.mp hbmem with h | h
      · exact hb b h
      · exact hbe b h
    have hdd : wav.sampleWidth ∣ (wav.data ++ extra).length := by
      rw [List.length_append]
      exact Nat.dvd_add hdvd hde
    have hc := wav_has_clipping_char suffix
      ⟨wav.sampleWidth, wav.channels, wav.totalFrames, wav.compType, wav.data ++ extra⟩
      r 3 cf hs hcomp hw hch hbb hdd hcf
    rw [h3] at hc
    rw [hc]
    dsimp only
    have hge : 3 ≤ specClippedCount wav.sampleWidth wav.channels
        (specClampedThreshold wav.sampleWidth r) (wav.data ++ extra) := by
      rw [specClippedCount, chunkSamples_append _ _ _ _ hfsdvd, List.countP_append]
      rw [specClippedCount] at hcount
      omega
    rw [decide_eq_true hge]

theorem c4_wav_has_clipping_witness :
    wav_has_clipping ".wav" ⟨1, 1, 3, "NONE", [255, 255, 255]⟩ 1 3 4096 =
      .ok (decide (3 ≤ specClippedCount 1 1 (specClampedThreshold 1 1) [255, 255, 255])) ∧
    (∀ extra : List Nat, (∀ b ∈ extra, b < 256) → (1 : Nat) ∣ extra.length →
      3 ≤ specClippedCount 1 1 (specClampedThreshold 1 1) [255, 255, 255] →
      wav_has_clipping ".wav" ⟨1, 1, 3, "NONE", [255, 255, 255] ++ extra⟩ 1 3 4096 =
        .ok true) :=
  c4_wav_has_clipping ".wav" ⟨1, 1, 3, "NONE", [255, 255, 255]⟩ 1 4096
    (by decide) rfl (by decide) (by decide) (by decide) (by decide) (by decide)

/-- C5: the fast-path chunk skip of wav_has_clipping is result-preserving: the
biased raw-byte peak of a chunk bounds the absolute value of every decoded sample
of that chunk from above, and the fast-path function computes exactly the verdict
of the naive variant that decodes and tests every sample of every chunk. -/
theorem c5_fast_path_refinement (suffix : String) (wav : WavStream) (r : ℚ) (m : Int)
    (cf : Nat) (hs : lowerSuffix suffix = wavExt) (hcomp : wav.compType = "NONE")
    (hw : wav.sampleWidth = 1 ∨ wav.sampleWidth = 2 ∨ wav.sampleWidth = 3 ∨
      wav.sampleWidth = 4)
    (hb : ∀ b ∈ wav.data, b < 256)
    (hfull : wav.data.length = wav.totalFrames * (wav.sampleWidth * wav.channels)) :
    (∀ frames : List Nat, (∀ b ∈ frames, b < 256) → wav.sampleWidth ∣ frames.length →
      ∃ p, chunk_peak wav.sampleWidth frames = .ok p ∧
        ∀ v ∈ chunkSamples wav.sampleWidth wav.channels frames, v.natAbs ≤ p) ∧
    wav_has_clipping suffix wav r m cf = wav_has_clipping_naive suffix wav r m cf := by
  have hdvd : wav.sampleWidth ∣ wav.data.length :=
    ⟨wav.totalFrames * wav.channels, by rw [hfull]; ring⟩
  constructor
  · intro frames hbf half
    exact chunk_peak_bound wav.sampleWidth wav.channels frames hw hbf half
  · have hgs : ¬(lowerSuffix suffix ≠ wavExt) := by simp [hs]
    have hgc : ¬(wav.compType ≠ "NONE") := by simp [hcomp]
    rw [wav_has_clipping, wav_has_clipping_naive, if_neg hgs, if_neg hgs,
      if_neg hgc, if_neg hgc, if_neg (not_not.mpr hw), if_neg (not_not.mpr hw)]
    by_cases hch0 : wav.channels = 0
    · rw [if_pos hch0, if_pos hch0]
    · rw [if_neg hch0, if_neg hch0]
      dsimp only
      by_cases hcb0 : cf * (wav.sampleWidth * wav.channels) = 0
      · rw [clipLoop, clipLoopNaive, dif_pos hcb0, dif_pos hcb0]
      · have hcb : 0 < cf * (wav.sampleWidth * wav.channels) := Nat.pos_of_ne_zero hcb0
        have hwcb : wav.sampleWidth ∣ cf * (wav.sampleWidth * wav.channels) :=
          ⟨cf * wav.channels, by ring⟩
        have hfscb : (wav.sampleWidth * wav.channels) ∣
            cf * (wav.sampleWidth * wav.channels) := ⟨cf, by ring⟩
        have hmh : 0 < (max 1 m).toNat := by
          have h1 : (1 : Int) ≤ max 1 m := le_max_left 1 m
          omega
        rw [clipLoop_spec wav.sampleWidth wav.channels _ _ _ hw hcb hwcb hfscb
          wav.data.length wav.data 0 le_rfl hb hdvd hmh]
        rw [clipLoopNaive_spec wav.sampleWidth wav.channels _ _ _ hcb hfscb
          wav.data.length wav.data 0 le_rfl hmh]

theorem c5_fast_path_refinement_witness :
    (∀ frames : List Nat, (∀ b ∈ frames, b < 256) → (2 : Nat) ∣ frames.length →
      ∃ p, chunk_peak 2 frames = .ok p ∧
        ∀ v ∈ chunkSamples 2 1 frames, v.natAbs ≤ p) ∧
    wav_has_clipping ".wav" ⟨2, 1, 2, "NONE", [0, 0, 255, 127]⟩ (999/1000) 3 4096 =
      wav_has_clipping_naive ".wav" ⟨2, 1, 2, "NONE", [0, 0, 255, 127]⟩ (999/1000) 3 4096 :=
  c5_fast_path_refinement ".wav" ⟨2, 1, 2, "NONE", [0, 0, 255, 127]⟩ (999/1000) 3 4096
    (by decide) rfl (by decide) (by decide) (by decide)

/-- C10: a minClippedSamples value at most 0 behaves exactly as the value 1: the
hit quota becomes max 1 of the value, and a single decoded sample at or above the
threshold already makes the check return true. -/
theorem c10_min_clipped_samples_floor (suffix : String) (wav : WavStream) (r : ℚ)
    (m : Int) (cf : Nat) (hm : m ≤ 0)
    (hs : lowerSuffix suffix = wavExt) (hcomp : wav.compType = "NONE")
    (hw : wav.sampleWidth = 1 ∨ wav.sampleWidth = 2 ∨ wav.sampleWidth = 3 ∨
      wav.sampleWidth = 4)
    (hch : 0 < wav.channels) (hb : ∀ b ∈ wav.data, b < 256)
    (hfull : wav.data.length = wav.totalFrames * (wav.sampleWidth * wav.channels))
    (hcf : 0 < cf) :
    wav_has_clipping suffix wav r m cf = wav_has_clipping suffix wav r 1 cf ∧
    (wav_has_clipping suffix wav r m cf = .ok true ↔
      1 ≤ specClippedCount wav.sampleWidth wav.channels
        (specClampedThreshold wav.sampleWidth r) wav.data) := by
  have hdvd : wav.sampleWidth ∣ wav.data.length :=
    ⟨wav.totalFrames * wav.channels, by rw [hfull]; ring⟩
  have hmax : max 1 m = (1 : Int) := max_eq_left (by omega)
  constructor
  · rw [wav_has_clipping, wav_has_clipping, hmax, max_self]
  · have hc := wav_has_clipping_char suffix wav r m cf hs hcomp hw hch hb hdvd hcf
    rw [hmax, Int.toNat_one] at hc
    rw [hc]
    simp only [Except.ok.injEq, decide_eq_true_eq]

theorem c10_min_clipped_samples_floor_witness :
    wav_has_clipping ".wav" ⟨1, 1, 2, "NONE", [255, 0]⟩ 1 (-2) 4096 =
      wav_has_clipping ".wav" ⟨1, 1, 2, "NONE", [255, 0]⟩ 1 1 4096 ∧
    (wav_has_clipping ".wav" ⟨1, 1, 2, "NONE", [255, 0]⟩ 1 (-2) 4096 = .ok true ↔
      1 ≤ specClippedCount 1 1 (specClampedThreshold 1 1) [255, 0]) :=
  c10_min_clipped_samples_floor ".wav" ⟨1, 1, 2, "NONE", [255, 0]⟩ 1 (-2) 4096
    (by decide) (by decide) rfl (by decide) (by decide) (by decide) (by decide) (by decide)

theorem clipLoop_ok_of_dvd (w ch th mh cb : Nat) (hwcb : w ∣ cb) :
    ∀ (n : Nat) (data : List Nat) (hits : Nat), data.length ≤ n → w ∣ data.length →
      ∃ b, clipLoop w ch th mh cb hits data = .ok b := by
  intro n
  induction n with
  | zero =>
    intro data hits hlen hdvd
    have hdata : data = [] := List.eq_nil_of_length_eq_zero (Nat.le_zero.mp hlen)
    subst hdata
    by_cases hcb0 : cb = 0
    · exact ⟨false, by rw [clipLoop, dif_pos hcb0]⟩
    · exact ⟨false, by rw [clipLoop, dif_neg hcb0, dif_pos rfl]⟩
  | succ n ih =>
    intro data hits hlen hdvd
    by_cases hcb0 : cb = 0
    · exact ⟨false, by rw [clipLoop, dif_pos hcb0]⟩
    by_cases hd : data = []
    · subst hd
      exact ⟨false, by rw [clipLoop, dif_neg hcb0, dif_pos rfl]⟩
    · have htake : w ∣ (data.take cb).length := by
        rw [List.length_take]
        rcases le_total cb data.length with hle | hle
        · rw [min_eq_left hle]
          exact hwcb
        · rw [min_eq_right hle]
          exact hdvd
      obtain ⟨p, hp⟩ : ∃ p, chunk_peak w (data.take cb) = .ok p :=
        ⟨_, chunk_peak_ok w (data.take cb) htake⟩
      have hdropn : (data.drop cb).length ≤ n := by
        rw [List.length_drop]
        have : 0 < data.length := List.length_pos.mpr hd
        omega
      have hdropd : w ∣ (data.drop cb).length := by
        rw [List.length_drop]
        exact Nat.dvd_sub' hdvd hwcb
      rw [clipLoop, dif_neg hcb0, dif_neg hd, hp]
      dsimp only
      by_cases hskip : p < th
      · rw [if_pos hskip]
        exact ih (data.drop cb) hits hdropn hdropd
      · rw [if_neg hskip]
        cases hscan : scanSamples th mh hits (chunkSamples w ch (data.take cb)) with
        | none => exact ⟨true, rfl⟩
        | some hits2 => exact ih (data.drop cb) hits2 hdropn hdropd

/-- C8 counterexample: a 16-bit mono stream whose trailing frame is cut to one
byte.  readframes delivers three bytes, audioop.max is asked for width-2 samples
of a three-byte fragment and raises audioop.error, so wav_has_clipping does not
return a boolean verdict although the file is malformed but readable. -/
theorem c8_counterexample :
    wav_has_clipping ".wav" ⟨2, 1, 2, "NONE", [0, 0, 0]⟩ (999/1000) 3 4096 =
      .error .audioopError := by
  rw [wav_has_clipping, if_neg (by decide), if_neg (by decide), if_neg (by decide),
    if_neg (by decide)]
  dsimp only
  rw [clipLoop, dif_neg (by decide), dif_neg (by decide)]
  have hp : chunk_peak 2 (List.take (4096 * (2 * 1)) [0, 0, 0]) = .error .audioopError := by
    decide
  rw [hp]

/-- C8 amended: on structurally malformed but readable input, the silence, RIFF
size, loop point and hard edge checks always return a boolean verdict: below 12
bytes and on wrong magic tags the RIFF size and loop point checks return false,
an undersized smpl chunk gives false, and the byte-level checks are total.  The
clipping check also returns a verdict whenever the sample width divides the
length of the available data, but a truncated trailing sample makes it raise the
audioop error instead of returning a verdict. -/
theorem c8_amended_malformed_readable (suffix : String)
    (hs : lowerSuffix suffix = wavExt) :
    (∀ file : List Nat, file.length < 12 →
      wav_riff_size_matches_file suffix file = .ok false ∧
      wav_has_loop_points suffix file = .ok false) ∧
    (∀ file : List Nat,
      ((file.take 12).take 4 ≠ riffTag ∨ ((file.take 12).drop 8).take 4 ≠ waveTag) →
      wav_riff_size_matches_file suffix file = .ok false ∧
      wav_has_loop_points suffix file = .ok false) ∧
    (∀ rest : List Nat, rest.take 4 = smplTag → leNat ((rest.drop 4).take 4) < 36 →
      loopPointsScan rest = false) ∧
    (∀ wav : WavStream, ∀ cf : Nat, ∃ b, is_wav_silent suffix wav cf = .ok b) ∧
    (∀ wav : WavStream, ∀ r : ℚ, ∀ ew : Int, wav.compType = "NONE" →
      (wav.sampleWidth = 1 ∨ wav.sampleWidth = 2 ∨ wav.sampleWidth = 3 ∨
        wav.sampleWidth = 4) →
      ∃ b, wav_has_hard_edges suffix wav r ew = .ok b) ∧
    (∀ wav : WavStream, ∀ r : ℚ, ∀ m : Int, ∀ cf : Nat, wav.compType = "NONE" →
      (wav.sampleWidth = 1 ∨ wav.sampleWidth = 2 ∨ wav.sampleWidth = 3 ∨
        wav.sampleWidth = 4) →
      wav.sampleWidth ∣ wav.data.length →
      ∃ b, wav_has_clipping suffix wav r m cf = .ok b) := by
  refine ⟨?_, ?_, ?_, ?_, ?_, ?_⟩
  · intro file h12
    constructor
    · rw [wav_riff_size_matches_file, if_neg (by simp [hs]), if_pos h12]
    · rw [wav_has_loop_points, if_neg (by simp [hs]), if_pos h12]
  · intro file hbad
    by_cases h12 : file.length < 12
    · constructor
      · rw [wav_riff_size_matches_file, if_neg (by simp [hs]), if_pos h12]
      · rw [wav_has_loop_points, if_neg (by simp [hs]), if_pos h12]
    · constructor
      · rw [wav_riff_size_matches_file, if_neg (by simp [hs]), if_neg h12, if_pos hbad]
      · rw [wav_has_loop_points, if_neg (by simp [hs]), if_neg h12, if_pos hbad]
  · intro rest hsm hsz
    by_cases h8 : rest.length < 8
    · rw [loopPointsScan, dif_pos h8]
    · rw [loopPointsScan, dif_neg h8]
      simp only [hsm, if_true, if_pos rfl]
      rw [if_pos hsz]
  · intro wav cf
    by_cases h0 : wav.totalFrames = 0
    · exact ⟨true, by rw [is_wav_silent, if_neg (by simp [hs]), if_pos h0]⟩
    · exact ⟨_, by rw [is_wav_silent, if_neg (by simp [hs]), if_neg h0]⟩
  · intro wav r ew hc hwv
    by_cases h0 : wav.totalFrames = 0
    · exact ⟨false, by
        rw [wav_has_hard_edges, if_neg (by simp [hs]), if_neg (by simp [hc]), if_pos h0]⟩
    · exact ⟨_, by
        rw [wav_has_hard_edges, if_neg (by simp [hs]), if_neg (by simp [hc]), if_neg h0,
          if_neg (not_not.mpr hwv)]⟩
  · intro wav r m cf hc hwv hdl
    rw [wav_has_clipping, if_neg (by simp [hs]), if_neg (by simp [hc]),
      if_neg (not_not.mpr hwv)]
    by_cases hch0 : wav.channels = 0
    · rw [if_pos hch0]
      exact ⟨false, rfl⟩
    · rw [if_neg hch0]
      dsimp only
      exact clipLoop_ok_of_dvd wav.sampleWidth wav.channels _ _ _
        ⟨cf * wav.channels, by ring⟩ wav.data.length wav.data 0 le_rfl hdl

theorem c8_amended_malformed_readable_witness :
    ((∀ file : List Nat, file.length < 12 →
      wav_riff_size_matches_file ".wav" file = .ok false ∧
      wav_has_loop_points ".wav" file = .ok false) ∧
    (∀ file : List Nat,
      ((file.take 12).take 4 ≠ riffTag ∨ ((file.take 12).drop 8).take 4 ≠ waveTag) →
      wav_riff_size_matches_file ".wav" file = .ok false ∧
      wav_has_loop_points ".wav" file = .ok false) ∧
    (∀ rest : List Nat, rest.take 4 = smplTag → leNat ((rest.drop 4).take 4) < 36 →
      loopPointsScan rest = false) ∧
    (∀ wav : WavStream, ∀ cf : Nat, ∃ b, is_wav_silent ".wav" wav cf = .ok b) ∧
    (∀ wav : WavStream, ∀ r : ℚ, ∀ ew : Int, wav.compType = "NONE" →
      (wav.sampleWidth = 1 ∨ wav.sampleWidth = 2 ∨ wav.sampleWidth = 3 ∨
        wav.sampleWidth = 4) →
      ∃ b, wav_has_hard_edges ".wav" wav r ew = .ok b) ∧
    (∀ wav : WavStream, ∀ r : ℚ, ∀ m : Int, ∀ cf : Nat, wav.compType = "NONE" →
      (wav.sampleWidth = 1 ∨ wav.sampleWidth = 2 ∨ wav.sampleWidth = 3 ∨
        wav.sampleWidth = 4) →
      wav.sampleWidth ∣ wav.data.length →
      ∃ b, wav_has_clipping ".wav" wav r m cf = .ok b)) :=
  c8_amended_malformed_readable ".wav" (by decide)

/-- C9 counterexample: a stream with sample width 5 and zero frames.  The edge
check returns false at the zero-frame early return before its width gate, so it
does not raise UnsupportedSampleWidth for this totalFrames value. -/
theorem c9_counterexample :
    wav_has_hard_edges ".wav" ⟨5, 1, 0, "NONE", []⟩ (1/200) 64 = .ok false ∧
    wav_has_hard_edges ".wav" ⟨5, 1, 0, "NONE", []⟩ (1/200) 64 ≠
      .error .unsupportedSampleWidth := by
  have h : wav_has_hard_edges ".wav" ⟨5, 1, 0, "NONE", []⟩ (1/200) 64 = .ok false := by
    rw [wav_has_hard_edges, if_neg (by decide), if_neg (by decide), if_pos rfl]
  refine ⟨h, ?_⟩
  rw [h]
  intro hc
  cases hc

/-- C9 amended: for a readable PCM stream whose sample width is outside 1..4, the
clipping check raises UnsupportedSampleWidth for every totalFrames, while the
edge check raises it exactly when totalFrames is nonzero and returns false at the
zero-frame early return otherwise. -/
theorem c9_amended_unsupported_width (suffix : String) (wav : WavStream) (r : ℚ)
    (ew : Int) (m : Int) (cf : Nat)
    (hs : lowerSuffix suffix = wavExt) (hcomp : wav.compType = "NONE")
    (hwbad : ¬(wav.sampleWidth = 1 ∨ wav.sampleWidth = 2 ∨ wav.sampleWidth = 3 ∨
      wav.sampleWidth = 4)) :
    wav_has_clipping suffix wav r m cf = .error .unsupportedSampleWidth ∧
    (wav.totalFrames ≠ 0 →
      wav_has_hard_edges suffix wav r ew = .error .unsupportedSampleWidth) ∧
    (wav.totalFrames = 0 → wav_has_hard_edges suffix wav r ew = .ok false) := by
  refine ⟨?_, ?_, ?_⟩
  · rw [wav_has_clipping, if_neg (by simp [hs]), if_neg (by simp [hcomp]), if_pos hwbad]
  · intro h0
    rw [wav_has_hard_edges, if_neg (by simp [hs]), if_neg (by simp [hcomp]), if_neg h0,
      if_pos hwbad]
  · intro h0
    rw [wav_has_hard_edges, if_neg (by simp [hs]), if_neg (by simp [hcomp]), if_pos h0]

theorem c9_amended_unsupported_width_witness :
    wav_has_clipping ".wav" ⟨5, 1, 1, "NONE", [0, 0, 0, 0, 0]⟩ (999/1000) 3 4096 =
      .error .unsupportedSampleWidth ∧
    ((⟨5, 1, 1, "NONE", [0, 0, 0, 0, 0]⟩ : WavStream).totalFrames ≠ 0 →
      wav_has_hard_edges ".wav" ⟨5, 1, 1, "NONE", [0, 0, 0, 0, 0]⟩ (999/1000) 64 =
        .error .unsupportedSampleWidth) ∧
    ((⟨5, 1, 1, "NONE", [0, 0, 0, 0, 0]⟩ : WavStream).totalFrames = 0 →
      wav_has_hard_edges ".wav" ⟨5, 1, 1, "NONE", [0, 0, 0, 0, 0]⟩ (999/1000) 64 =
        .ok false) :=
  c9_amended_unsupported_width ".wav" ⟨5, 1, 1, "NONE", [0, 0, 0, 0, 0]⟩ (999/1000) 64 3 4096
    (by decide) rfl (by decide)
